import Mathlib

/-!
Verification of the litepack cache lifecycle and eviction engine.

The definitions below are a shallow embedding of the cache core:
the cache table and its SQL statements (cache/queries/cache.sql and
unnamed/part_004), the engine operations Set/Get/Purge/ReclaimExpired
(cache/cache.go, cache/purge.go), the retry helper
(unnamed/part_021), the transactional wrappers
(cache/cache.go PurgeDB, database/database.go ExecWithTx) and the
scheduler lifecycle (schedule/scheduler.go, cache/cache.go Close).
Timestamps are integers, byte payloads are strings, and the float64
purge fraction is modelled in exact rational arithmetic.
-/

namespace Litepack

/-- A row of the cache table (cache/queries/cache.sql CreateDatabase and
unnamed/part_004 CreateCacheDatabase): key TEXT PRIMARY KEY, value BLOB,
created_at TIMESTAMP DEFAULT CURRENT_TIMESTAMP, expires_at TIMESTAMP,
last_accessed_at TIMESTAMP. -/
structure Entry where
  key : String
  value : String
  created_at : Int
  expires_at : Int
  last_accessed_at : Int
deriving DecidableEq

/-- The cache table, rows in rowid order. -/
abbrev Table := List Entry

/-- key TEXT PRIMARY KEY: every key appears at most once. -/
def KeysNodup (t : Table) : Prop := (t.map Entry.key).Nodup

instance (t : Table) : Decidable (KeysNodup t) :=
  inferInstanceAs (Decidable (List.Nodup _))

/-- GetValue (cache/queries/cache.sql): SELECT value FROM cache WHERE
key = ? AND expires_at > ?. -/
def getValue (t : Table) (k : String) (now : Int) : Option String :=
  (t.find? fun e => decide (e.key = k ∧ now < e.expires_at)).map Entry.value

/-- UpdateLastAccessedAt (cache/queries/cache.sql): UPDATE cache SET
last_accessed_at = ? WHERE key = ?. -/
def updateLastAccessedAt (t : Table) (ts : Int) (k : String) : Table :=
  t.map fun e => if e.key = k then { e with last_accessed_at := ts } else e

/-- DeleteKey (cache/queries/cache.sql): DELETE FROM cache WHERE key = ?. -/
def deleteKey (t : Table) (k : String) : Table :=
  t.filter fun e => decide (e.key ≠ k)

/-- CountEntries / CountCacheEntries: SELECT COUNT(*) FROM cache. -/
def countEntries (t : Table) : Nat := t.length

/-- DeleteExpiredCache (unnamed/part_004): DELETE FROM cache WHERE
expires_at <= ?; invoked by clearExpiredItems (cache/cache.go:900-906)
and PurgeExpiredItems (cache/purge.go:50-57) with the current time. -/
def deleteExpiredCache (t : Table) (now : Int) : Table :=
  t.filter fun e => decide (now < e.expires_at)

/-- Row order used by ORDER BY last_accessed_at ASC. -/
def laLe (a b : Entry) : Prop := a.last_accessed_at ≤ b.last_accessed_at

instance : DecidableRel laLe :=
  fun a b => inferInstanceAs (Decidable (a.last_accessed_at ≤ b.last_accessed_at))

instance : IsTotal Entry laLe :=
  ⟨fun a b => Int.le_total a.last_accessed_at b.last_accessed_at⟩

instance : IsTrans Entry laLe := ⟨fun _ _ _ h1 h2 => le_trans h1 h2⟩

/-- SelectKeysToDelete (cache/queries/cache.sql): SELECT key FROM cache
ORDER BY last_accessed_at ASC LIMIT ?.  Ties keep row order (the source
specifies no secondary sort key), hence a stable sort. -/
def selectKeysToDelete (t : Table) (n : Nat) : List String :=
  ((t.insertionSort laLe).take n).map Entry.key

/-- DeleteKeys / DeleteKeysByLimit (cache/queries/cache.sql): DELETE FROM
cache WHERE key IN (SELECT key FROM cache ORDER BY last_accessed_at ASC
LIMIT ?). -/
def deleteKeysByLimit (t : Table) (n : Nat) : Table :=
  t.filter fun e => decide (e.key ∉ selectKeysToDelete t n)

/-- UpsertCache (cache/queries/cache.sql): INSERT INTO cache (key, value,
expires_at, last_accessed_at) VALUES (?, ?, ?, ?) ON CONFLICT (key) DO
UPDATE SET value = excluded.value, expires_at = excluded.expires_at,
last_accessed_at = excluded.last_accessed_at.  On conflict the existing
row is updated in place (rowid and created_at untouched); otherwise a
fresh row is appended with created_at defaulting to the current time. -/
def upsertCache (t : Table) (k v : String) (expiresAt lastAccessedAt now : Int) : Table :=
  if t.any fun e => decide (e.key = k) then
    t.map fun e =>
      if e.key = k then
        { e with value := v, expires_at := expiresAt, last_accessed_at := lastAccessedAt }
      else e
  else
    t ++ [{ key := k, value := v, created_at := now, expires_at := expiresAt,
            last_accessed_at := lastAccessedAt }]

/-- Number of entries a purge removes: int(float64(totalEntries) * percent)
(cache/cache.go:866, cache/purge.go:73, cache/cache.go:222), modelled in
exact rational arithmetic; for a fraction in [0, 1] the Go truncation
toward zero is the floor of the product. -/
def entriesToDelete (n : Nat) (percent : ℚ) : Nat := (⌊(n : ℚ) * percent⌋).toNat

/-- Shared purge algorithm of Purge (cache/cache.go:203-251),
PurgeWithTransaction (cache/cache.go:854-877) and purgeEntriesByPercentage
(cache/purge.go:60-84): reject a fraction outside [0, 1] before touching
storage; count the entries; a zero delete count is a no-op success;
otherwise delete the K least recently accessed entries. -/
def purgeEntries (t : Table) (percent : ℚ) : Except String Table :=
  if percent < 0 ∨ 1 < percent then .error "invalid percentage"
  else
    let k := entriesToDelete (countEntries t) percent
    if k = 0 then .ok t
    else .ok (deleteKeysByLimit t k)

/-- Outcome of cache.Get as the caller sees it: a miss is (nil, nil), a hit
is (value, nil); storage faults other than the swallowed touch failure are
outside the model. -/
inductive GetOutcome where
  | notFound
  | found (v : String)
deriving DecidableEq

/-- cache.Get (cache/cache.go:797-823, likewise 119-148): one filtered
lookup with expires_at > now; a miss returns (nil, nil); a hit updates
last_accessed_at to now and swallows a failure of that update (the flag
touchOk tells whether the update statement succeeds). -/
def cacheGet (t : Table) (k : String) (now : Int) (touchOk : Bool) : GetOutcome × Table :=
  match getValue t k now with
  | none => (.notFound, t)
  | some v => (.found v, if touchOk then updateLastAccessedAt t now k else t)

/-- State change of one successful upsert inside cache.Set
(cache/cache.go:719-731): expires_at = now + ttl, last_accessed_at = now,
issued as the single UpsertCache statement. -/
def setState (t : Table) (k v : String) (ttl now : Int) : Table :=
  upsertCache t k v (now + ttl) now now

/-- A row of the variant cache table (cache/cache.go:519-533): key, value,
expires_at, created_at — this schema has no last_accessed_at column. -/
structure EntryV2 where
  key : String
  value : String
  expires_at : Int
  created_at : Int
deriving DecidableEq

/-- Variant Set (unnamed/part_002:114-123): a single INSERT OR REPLACE
with (key, value, expires_at).  REPLACE removes the conflicting row and
inserts a fresh one: the row is re-inserted at the end and created_at
takes its column default, the current time. -/
def setV2 (t : List EntryV2) (k v : String) (expiresAt now : Int) : List EntryV2 :=
  (t.filter fun e => decide (e.key ≠ k)) ++
    [{ key := k, value := v, expires_at := expiresAt, created_at := now }]

/-- Variant Get (cache/cache.go:432-459): unfiltered point lookup followed
by an expiry re-check in code — when now is strictly after expires_at the
row is deleted and (nil, nil) is returned, otherwise the value is
returned. -/
def cacheGetV2 (t : List EntryV2) (k : String) (now : Int) : GetOutcome × List EntryV2 :=
  match t.find? fun e => decide (e.key = k) with
  | none => (.notFound, t)
  | some e =>
    if e.expires_at < now then
      (.notFound, t.filter fun x => decide (x.key ≠ k))
    else (.found e.value, t)

/-- Result of one upsert attempt as classified by cache.Set
(cache/cache.go:731-739): success, a database-or-disk-is-full error
(database.IsDatabaseFullError), or any other storage error. -/
inductive UpsertOutcome where
  | ok
  | fullErr
  | otherErr
deriving DecidableEq

/-- Driver behaviour during one Set call: the outcome of the i-th upsert
attempt and the success of the i-th PurgeDB call. -/
structure SetEnv where
  upsert : Nat → UpsertOutcome
  purgeOk : Nat → Bool

/-- How many upsert attempts and PurgeDB calls a Set call has made. -/
structure SetCounters where
  upserts : Nat
  purges : Nat
deriving DecidableEq

/-- Error of one attempt of the retried closure in cache.Set: the wrapped
PurgeDB failure, or the wrapped upsert failure (the latter also covers the
branch where the purge succeeded and the now-nil error is wrapped,
cache/cache.go:738). -/
inductive SetErr where
  | purgeFailed
  | execFailed
deriving DecidableEq

/-- Body of the retried closure in cache.Set (cache/cache.go:720-742):
run the upsert; on a database-full error run PurgeDB — reporting its
failure, otherwise falling through to report the upsert failure — so every
storage-full attempt performs exactly one purge; any other failure is
reported without purging. -/
def setRetryFunc (env : SetEnv) (c : SetCounters) : Option SetErr × SetCounters :=
  match env.upsert c.upserts with
  | .ok => (none, { c with upserts := c.upserts + 1 })
  | .fullErr =>
    if env.purgeOk c.purges then
      (some .execFailed, { upserts := c.upserts + 1, purges := c.purges + 1 })
    else
      (some .purgeFailed, { upserts := c.upserts + 1, purges := c.purges + 1 })
  | .otherErr => (some .execFailed, { c with upserts := c.upserts + 1 })

/-- Result of helpers.Retry: the context error, or the outcome of the last
attempt of f (none meaning success). -/
inductive RetryResult (ε : Type) where
  | ctxError
  | fnResult (e : Option ε)
deriving DecidableEq

/-- Loop of helpers.Retry (unnamed/part_021:18-35): before each remaining
attempt check the context (ctxDone i at iteration i), run f, return at
once on success; when the attempts are exhausted return the last error. -/
def retryAux {σ ε : Type} (ctxDone : Nat → Bool) (f : σ → Option ε × σ) :
    Nat → Nat → σ → Option ε → RetryResult ε × σ
  | 0, _, s, last => (.fnResult last, s)
  | n + 1, i, s, _ =>
    if ctxDone i then (.ctxError, s)
    else
      match f s with
      | (none, s') => (.fnResult none, s')
      | (some e, s') => retryAux ctxDone f n (i + 1) s' (some e)

/-- helpers.Retry(ctx, f, retryAttempts) (unnamed/part_021:18-35). -/
def Retry {σ ε : Type} (ctxDone : Nat → Bool) (f : σ → Option ε × σ)
    (attempts : Nat) (s : σ) : RetryResult ε × σ :=
  retryAux ctxDone f attempts 0 s none

/-- cache.Set (cache/cache.go:744): helpers.Retry(ctx, retryFunc, 2),
with a context that is never cancelled. -/
def cacheSet (env : SetEnv) : RetryResult SetErr × SetCounters :=
  Retry (fun _ => false) (setRetryFunc env) 2 ⟨0, 0⟩

/-- Fate of the explicit transaction of a purge call. -/
inductive TxOutcome where
  | committed
  | rolledBack
  | leftOpen
  | notStarted
deriving DecidableEq

/-- Success switches for the storage steps of a purge call. -/
structure TxEnv where
  beginOk : Bool
  purgeStepOk : Bool
  vacuumOk : Bool
  commitOk : Bool
deriving DecidableEq

/-- Observable result of PurgeDB: returned error, visible table, and the
fate of its transaction. -/
structure PurgeRun where
  err : Option String
  table : Table
  tx : TxOutcome
deriving DecidableEq

/-- The in-transaction purge step: PurgeWithTransaction
(cache/cache.go:854-877) validates the fraction first, then counts and
deletes through the transaction; purgeStepOk tells whether those storage
statements succeed. -/
def purgeStepTx (env : TxEnv) (percent : ℚ) (t : Table) : Except String Table :=
  if percent < 0 ∨ 1 < percent then .error "invalid percentage"
  else if ¬env.purgeStepOk then .error "storage failure"
  else purgeEntries t percent

/-- cache.PurgeDB (cache/cache.go:759-786): Begin, PurgeWithTransaction,
VacuumWithTransaction, Commit.  The deferred rollback fires only when the
outer err is non-nil, but every inner failure is bound to a new, shadowed
err and returns directly, so a failing step leaves the transaction open —
neither committed nor rolled back — and the deletions invisible. -/
def PurgeDB (env : TxEnv) (percent : ℚ) (t : Table) : PurgeRun :=
  if ¬env.beginOk then ⟨some "error to begin transaction", t, .notStarted⟩
  else
    match purgeStepTx env percent t with
    | .error _ => ⟨some "error purging cache", t, .leftOpen⟩
    | .ok t' =>
      if ¬env.vacuumOk then ⟨some "error vacuuming cache", t, .leftOpen⟩
      else if ¬env.commitOk then ⟨some "error to commit transaction", t, .leftOpen⟩
      else ⟨none, t', .committed⟩

/-- database.ExecWithTx (database/database.go:250-268): Begin, run fn;
on an fn error Rollback and return the wrapped error; on success ALSO
Rollback — the success path never commits — so the changes made inside the
transaction are always discarded. -/
def ExecWithTx (beginOk : Bool) (fn : Table → Except String Table) (t : Table) :
    Option String × Table × TxOutcome :=
  if ¬beginOk then (some "error beginning transaction", t, .notStarted)
  else
    match fn t with
    | .error _ => (some "error rolling back transaction", t, .rolledBack)
    | .ok _ => (none, t, .rolledBack)

/-- cache.PurgeItens (cache/purge.go:21-41): the delete-oldest-K step runs
through Database.ExecWithTx; Database.Vacuum runs afterwards, outside that
transaction. -/
def PurgeItens (env : TxEnv) (percent : ℚ) (t : Table) : Option String × Table :=
  match ExecWithTx env.beginOk (purgeStepTx env percent) t with
  | (some _, t', _) => (some "purging cache", t')
  | (none, t', _) =>
    if ¬env.vacuumOk then (some "vacuuming cache", t') else (none, t')

/-- State of the cron inside schedule.Scheduler: how many recurring tasks
are registered and whether the dispatcher is running. -/
structure CronState where
  entries : Nat
  running : Bool
deriving DecidableEq

/-- cron Start (schedule/scheduler.go:95-97). -/
def cronStart (c : CronState) : CronState := { c with running := true }

/-- scheduler.Stop (schedule/scheduler.go:100-102): stops the dispatcher;
registered entries remain in place. -/
def cronStop (c : CronState) : CronState := { c with running := false }

/-- A maintenance tick dispatches exactly when the cron is running and a
task is registered. -/
def tickFires (c : CronState) : Bool := c.running && decide (0 < c.entries)

/-- Lifecycle state of a whole cache instance: its scheduler, whether the
storage handle is open, and the stored data. -/
structure CacheSystem where
  cron : CronState
  storageOpen : Bool
  table : Table
deriving DecidableEq

/-- cache.Close (cache/cache.go:908-911): ch.engine.Close() and nothing
else — the scheduler is not stopped and the data is not deleted. -/
def cacheClose (s : CacheSystem) : CacheSystem := { s with storageOpen := false }

/-- Stopping the scheduler component of a cache instance
(scheduler.Stop → cron.Stop). -/
def systemSchedulerStop (s : CacheSystem) : CacheSystem :=
  { s with cron := cronStop s.cron }

/-- Five-row table with distinct keys and distinct access times. -/
def tab5 : Table :=
  [⟨"k1", "v1", 0, 100, 1⟩, ⟨"k2", "v2", 0, 100, 2⟩, ⟨"k3", "v3", 0, 100, 3⟩,
   ⟨"k4", "v4", 0, 100, 4⟩, ⟨"k5", "v5", 0, 100, 5⟩]

/-- Purge environment where every storage step succeeds. -/
def envAllOk : TxEnv := ⟨true, true, true, true⟩

/-- Purge environment where only the vacuum step fails. -/
def envVacuumFails : TxEnv := ⟨true, true, false, true⟩

/-- Set environment where every upsert attempt reports a full database and
every purge succeeds. -/
def envBothFull : SetEnv := ⟨fun _ => .fullErr, fun _ => true⟩

/-- Set environment where the first upsert reports a full database and the
retried upsert succeeds. -/
def envFullThenOk : SetEnv :=
  ⟨fun i => if i = 0 then .fullErr else .ok, fun _ => true⟩

/-- A running cache instance with one registered maintenance task. -/
def sys0 : CacheSystem := ⟨⟨1, true⟩, true, tab5⟩

/-- Two-row variant table, key "a" first. -/
def tabC6 : List EntryV2 := [⟨"a", "v1", 100, 0⟩, ⟨"b", "w", 100, 0⟩]

/-- A variant row whose expiry instant is exactly 5. -/
def rowExact : EntryV2 := ⟨"k", "v", 5, 0⟩

/-- C1, counterexample.  When both upsert attempts fail with the
storage-full error, cache.Set runs PurgeDB twice — once inside each failed
attempt of the retried closure — so after a first storage-full failure the
purge does not run exactly once.  (The upsert is still attempted exactly
twice and the call fails.) -/
theorem set_double_full_purges_twice :
    envBothFull.upsert 0 = .fullErr ∧
    (cacheSet envBothFull).2.upserts = 2 ∧
    (cacheSet envBothFull).2.purges = 2 ∧
    ¬(cacheSet envBothFull).2.purges = 1 ∧
    (cacheSet envBothFull).1 = .fnResult (some .execFailed) := by
  exact ⟨rfl, rfl, rfl, by decide, rfl⟩

/-- C1, amended.  When the first upsert of a Set fails with the
storage-full error, the upsert is attempted exactly twice (never a third
time); PurgeDB runs once for the first failure, and once more exactly when
the retried upsert also fails with storage-full; the call succeeds exactly
when the retried upsert succeeds, otherwise the error of the final attempt
is returned. -/
theorem set_retry_behavior (env : SetEnv) (h0 : env.upsert 0 = .fullErr) :
    (cacheSet env).2.upserts = 2 ∧
    (cacheSet env).2.purges = (if env.upsert 1 = .fullErr then 2 else 1) ∧
    ((cacheSet env).1 = .fnResult none ↔ env.upsert 1 = .ok) := by
  cases h1 : env.upsert 1 <;> cases hp0 : env.purgeOk 0 <;> cases hp1 : env.purgeOk 1 <;>
    simp [cacheSet, Retry, retryAux, setRetryFunc, h0, h1, hp0, hp1]

/-- C1, witness for set_retry_behavior at a concrete environment where the
first attempt is storage-full and the retry succeeds. -/
theorem set_retry_behavior_witness :
    (cacheSet envFullThenOk).2.upserts = 2 ∧
    (cacheSet envFullThenOk).2.purges =
      (if envFullThenOk.upsert 1 = .fullErr then 2 else 1) ∧
    ((cacheSet envFullThenOk).1 = .fnResult none ↔ envFullThenOk.upsert 1 = .ok) :=
  set_retry_behavior envFullThenOk rfl

/-- C4, counterexample.  The re-check variant of Get returns the stored
value for an entry whose expires_at equals now, because the code tests
now.After(expires_at) — strict — before returning; such an entry has
expires_at <= now yet is returned. -/
theorem getV2_exact_expiry_returned :
    rowExact.expires_at ≤ 5 ∧ (cacheGetV2 [rowExact] "k" 5).1 = .found "v" := by
  decide

/-- C4, amended.  For the filtered-lookup Get, an absent key or one whose
entries all have expires_at <= now yields the uniform not-found outcome (no
value and no error); for the re-check Get variant the same holds when every
matching entry has expires_at strictly below now — at expires_at = now that
variant returns the value. -/
theorem get_notfound_uniform (t : Table) (t2 : List EntryV2) (k : String) (now : Int)
    (touchOk : Bool)
    (h1 : ∀ e ∈ t, e.key = k → e.expires_at ≤ now)
    (h2 : ∀ e ∈ t2, e.key = k → e.expires_at < now) :
    (cacheGet t k now touchOk).1 = .notFound ∧ (cacheGetV2 t2 k now).1 = .notFound := by
  constructor
  · have hf : t.find? (fun e => decide (e.key = k ∧ now < e.expires_at)) = none := by
      rw [List.find?_eq_none]
      intro e he
      simp only [decide_eq_true_eq, not_and]
      intro hk
      exact not_lt.mpr (h1 e he hk)
    have hg : getValue t k now = none := by
      simp only [getValue, hf]
      rfl
    simp [cacheGet, hg]
  · cases hf : t2.find? (fun e => decide (e.key = k)) with
    | none => simp [cacheGetV2, hf]
    | some e =>
      have he2 : e ∈ t2 := List.mem_of_find?_eq_some hf
      have hk : e.key = k := by simpa using List.find?_some hf
      have hlt : e.expires_at < now := h2 e he2 hk
      simp [cacheGetV2, hf, hlt]

/-- C4, witness for get_notfound_uniform: an entry expired at exactly now
for the filtered lookup and a strictly expired entry for the re-check
variant, both not found. -/
theorem get_notfound_uniform_witness :
    (cacheGet [⟨"k", "v", 0, 10, 0⟩] "k" 10 true).1 = .notFound ∧
    (cacheGetV2 [⟨"k", "v", 5, 0⟩] "k" 10).1 = .notFound :=
  get_notfound_uniform [⟨"k", "v", 0, 10, 0⟩] [⟨"k", "v", 5, 0⟩] "k" 10 true
    (by decide) (by decide)

/-- C5, code evaluation at the failing input.  On a running cache with one
registered maintenance task, Close closes the storage handle and keeps the
data, but leaves the scheduler running, so the expiry-reclaim tick still
fires — now against a closed handle; only an explicit scheduler Stop
prevents further ticks. -/
theorem close_leaves_scheduler_running :
    (cacheClose sys0).storageOpen = false ∧
    (cacheClose sys0).table = sys0.table ∧
    (cacheClose sys0).cron.running = true ∧
    tickFires (cacheClose sys0).cron = true ∧
    tickFires (systemSchedulerStop sys0).cron = false := by
  decide

/-- C7.  On a successful hit, Get returns the value with no error whether
or not the last_accessed_at touch succeeds: when the touch succeeds the
entry's last_accessed_at becomes now, and when it fails the failure is
swallowed and the table is left as it was. -/
theorem get_hit_touch_swallowed (t : Table) (k v : String) (now : Int)
    (h : getValue t k now = some v) :
    cacheGet t k now true = (.found v, updateLastAccessedAt t now k) ∧
    cacheGet t k now false = (.found v, t) := by
  simp [cacheGet, h]

/-- C7, witness for get_hit_touch_swallowed at a concrete hit. -/
theorem get_hit_touch_swallowed_witness :
    cacheGet tab5 "k3" 50 true = (.found "v3", updateLastAccessedAt tab5 50 "k3") ∧
    cacheGet tab5 "k3" 50 false = (.found "v3", tab5) :=
  get_hit_touch_swallowed tab5 "k3" "v3" 50 (by decide)

/-- C8.  The expiry sweep keeps exactly the entries with expires_at > now
(so it deletes all and only those with expires_at <= now), it is
idempotent, and with zero matching rows it is a no-op success. -/
theorem reclaim_expired_spec (t : Table) (now : Int) :
    (∀ e, e ∈ deleteExpiredCache t now ↔ e ∈ t ∧ now < e.expires_at) ∧
    deleteExpiredCache (deleteExpiredCache t now) now = deleteExpiredCache t now ∧
    ((∀ e ∈ t, now < e.expires_at) → deleteExpiredCache t now = t) := by
  refine ⟨fun e => ?_, ?_, fun h => ?_⟩
  · simp [deleteExpiredCache, List.mem_filter]
  · simp [deleteExpiredCache, List.filter_filter]
  · rw [deleteExpiredCache, List.filter_eq_self]
    intro a ha
    simpa using h a ha

/-- C8, witness for reclaim_expired_spec at a concrete table and instant. -/
theorem reclaim_expired_spec_witness :
    (∀ e, e ∈ deleteExpiredCache tab5 5 ↔ e ∈ tab5 ∧ 5 < e.expires_at) ∧
    deleteExpiredCache (deleteExpiredCache tab5 5) 5 = deleteExpiredCache tab5 5 ∧
    ((∀ e ∈ tab5, 5 < e.expires_at) → deleteExpiredCache tab5 5 = tab5) :=
  reclaim_expired_spec tab5 5

/-- C10.  A Get that misses — absent key or no unexpired entry — returns
the not-found outcome and leaves the table unchanged: no last_accessed_at
touch and no other write happens. -/
theorem get_miss_no_write (t : Table) (k : String) (now : Int) (touchOk : Bool)
    (h : getValue t k now = none) :
    cacheGet t k now touchOk = (.notFound, t) := by
  simp [cacheGet, h]

/-- C10, witness for get_miss_no_write at a concrete absent key. -/
theorem get_miss_no_write_witness :
    cacheGet tab5 "absent" 50 true = (.notFound, tab5) :=
  get_miss_no_write tab5 "absent" 50 true (by decide)

/-- Evaluation helper: at five entries and fraction 1/5 the purge algorithm
deletes exactly the least recently accessed entry. -/
theorem purge_tab5_eval : purgeEntries tab5 (1/5 : ℚ) = Except.ok (tab5.drop 1) := by
  have hval : ¬((1/5 : ℚ) < 0 ∨ 1 < (1/5 : ℚ)) := by norm_num
  have hk : entriesToDelete (countEntries tab5) (1/5 : ℚ) = 1 := by
    norm_num [entriesToDelete, countEntries, tab5]
  simp only [purgeEntries, hval, if_false, hk]
  rw [if_neg (by decide : ¬(1 = 0))]
  exact congrArg Except.ok (by decide)

/-- Evaluation helper: the in-transaction purge step with working storage
behaves as the purge algorithm. -/
theorem purgeStepTx_tab5_eval (env : TxEnv) (hstep : env.purgeStepOk = true) :
    purgeStepTx env (1/5 : ℚ) tab5 = Except.ok (tab5.drop 1) := by
  have hval : ¬((1/5 : ℚ) < 0 ∨ 1 < (1/5 : ℚ)) := by norm_num
  simp only [purgeStepTx, hval, if_false, hstep, purge_tab5_eval]
  simp

/-- C2, code evaluation at the failing input.  On a five-entry table with
fraction 1/5 and every storage step succeeding, PurgeItens returns success
yet the table is unchanged — ExecWithTx rolls its transaction back even on
success, so the delete that the purge algorithm prescribes (dropping one
entry) is discarded, and no space is reclaimed before Set's retry; in
PurgeDB a failing vacuum returns an error with the transaction left open —
not rolled back, because the deferred rollback tests the shadowed outer
err — though the deletion stays invisible; only the all-success PurgeDB
path commits the deletion. -/
theorem purge_tx_bug_eval :
    PurgeItens envAllOk (1/5 : ℚ) tab5 = (none, tab5) ∧
    purgeEntries tab5 (1/5 : ℚ) = Except.ok (tab5.drop 1) ∧
    (tab5.drop 1).length + 1 = tab5.length ∧
    PurgeDB envVacuumFails (1/5 : ℚ) tab5 =
      ⟨some "error vacuuming cache", tab5, .leftOpen⟩ ∧
    PurgeDB envAllOk (1/5 : ℚ) tab5 = ⟨none, tab5.drop 1, .committed⟩ := by
  have h1 : purgeStepTx envAllOk (1/5 : ℚ) tab5 = Except.ok (tab5.drop 1) :=
    purgeStepTx_tab5_eval envAllOk rfl
  have h2 : purgeStepTx envVacuumFails (1/5 : ℚ) tab5 = Except.ok (tab5.drop 1) :=
    purgeStepTx_tab5_eval envVacuumFails rfl
  refine ⟨?_, purge_tab5_eval, by decide, ?_, ?_⟩
  · unfold PurgeItens ExecWithTx
    rw [h1]
    decide
  · unfold PurgeDB
    rw [h2]
    decide
  · unfold PurgeDB
    rw [h1]
    decide

/-- Characterization helper: any row of the upserted table that carries the
upserted key holds the new value, expiry and access time (the upsert
statement updates every conflicting row; absent the key a fresh row is
appended). -/
theorem upsert_mem_key (t : Table) (k v : String) (ea la now : Int) :
    ∀ e ∈ upsertCache t k v ea la now, e.key = k →
      e.value = v ∧ e.expires_at = ea ∧ e.last_accessed_at = la := by
  intro e he hk
  unfold upsertCache at he
  by_cases hany : (t.any fun x => decide (x.key = k)) = true
  · rw [if_pos hany] at he
    obtain ⟨x, hx, hxe⟩ := List.mem_map.mp he
    by_cases hxk : x.key = k
    · rw [if_pos hxk] at hxe
      subst hxe
      exact ⟨rfl, rfl, rfl⟩
    · rw [if_neg hxk] at hxe
      subst hxe
      exact absurd hk hxk
  · rw [if_neg hany] at he
    rcases List.mem_append.mp he with h | h
    · exact absurd (List.any_eq_true.mpr ⟨e, h, by simp [hk]⟩) hany
    · have : e = ⟨k, v, now, ea, la⟩ := by simpa using h
      subst this
      exact ⟨rfl, rfl, rfl⟩

/-- Existence helper: after an upsert the table holds a row with the
upserted key, value, expiry and access time. -/
theorem upsert_exists_key (t : Table) (k v : String) (ea la now : Int) :
    ∃ e ∈ upsertCache t k v ea la now,
      e.key = k ∧ e.value = v ∧ e.expires_at = ea ∧ e.last_accessed_at = la := by
  unfold upsertCache
  by_cases hany : (t.any fun x => decide (x.key = k)) = true
  · rw [if_pos hany]
    obtain ⟨x, hx, hpx⟩ := List.any_eq_true.mp hany
    have hxk : x.key = k := by simpa using hpx
    refine ⟨{ x with value := v, expires_at := ea, last_accessed_at := la }, ?_, by simp [hxk]⟩
    exact List.mem_map.mpr ⟨x, hx, by rw [if_pos hxk]⟩
  · rw [if_neg hany]
    exact ⟨⟨k, v, now, ea, la⟩, by simp, rfl, rfl, rfl, rfl⟩

/-- C9.  Set accepts any ttl without validation: for ttl <= 0 the upsert
still happens and stores a row whose expires_at = now + ttl is not after
now, so at any instant from now on a Get of that key misses — the write is
accepted but never observable. -/
theorem set_no_ttl_validation (t : Table) (k v : String) (ttl now now2 : Int)
    (touchOk : Bool) (httl : ttl ≤ 0) (hnow : now ≤ now2) :
    (∃ e ∈ setState t k v ttl now,
        e.key = k ∧ e.expires_at = now + ttl ∧ e.expires_at ≤ now) ∧
    getValue (setState t k v ttl now) k now2 = none ∧
    (cacheGet (setState t k v ttl now) k now2 touchOk).1 = .notFound := by
  unfold setState
  have hle : now + ttl ≤ now := by omega
  obtain ⟨e0, he0, hk0, _, hea0, _⟩ := upsert_exists_key t k v (now + ttl) now now
  have hf : (upsertCache t k v (now + ttl) now now).find?
      (fun e => decide (e.key = k ∧ now2 < e.expires_at)) = none := by
    rw [List.find?_eq_none]
    intro e he
    simp only [decide_eq_true_eq, not_and]
    intro hk
    obtain ⟨_, hea, _⟩ := upsert_mem_key t k v (now + ttl) now now e he hk
    rw [hea]
    exact not_lt.mpr (le_trans hle hnow)
  have hg : getValue (upsertCache t k v (now + ttl) now now) k now2 = none := by
    simp only [getValue, hf]
    rfl
  exact ⟨⟨e0, he0, hk0, hea0, hea0 ▸ hle⟩, hg, by simp [cacheGet, hg]⟩

/-- C9, witness for set_no_ttl_validation: a zero ttl write to a fresh
table, read at the same instant. -/
theorem set_no_ttl_validation_witness :
    (∃ e ∈ setState [] "k" "v" 0 7,
        e.key = "k" ∧ e.expires_at = 7 + 0 ∧ e.expires_at ≤ 7) ∧
    getValue (setState [] "k" "v" 0 7) "k" 7 = none ∧
    (cacheGet (setState [] "k" "v" 0 7) "k" 7 true).1 = .notFound :=
  set_no_ttl_validation [] "k" "v" 0 7 7 true (by decide) (by decide)

/-- Uniqueness helper: under the primary-key invariant two rows with the
same key are the same row. -/
theorem key_unique (t : Table) (ht : KeysNodup t) :
    ∀ x ∈ t, ∀ y ∈ t, x.key = y.key → x = y := by
  induction t with
  | nil => simp
  | cons a t ih =>
    rw [KeysNodup, List.map_cons, List.nodup_cons] at ht
    obtain ⟨ha, ht'⟩ := ht
    intro x hx y hy hk
    rcases List.mem_cons.mp hx with hxa | hx
    · rcases List.mem_cons.mp hy with hya | hy
      · rw [hxa, hya]
      · exfalso
        apply ha
        rw [← hxa, hk]
        exact List.mem_map_of_mem Entry.key hy
    · rcases List.mem_cons.mp hy with hya | hy
      · exfalso
        apply ha
        rw [← hya, ← hk]
        exact List.mem_map_of_mem Entry.key hx
      · exact ih ht' x hx y hy hk

/-- Counting helper: under the primary-key invariant a present key counts
exactly one row. -/
theorem countP_key_eq_one (t : Table) (c : String) (ht : KeysNodup t)
    (hc : c ∈ t.map Entry.key) :
    t.countP (fun x => decide (x.key = c)) = 1 := by
  induction t with
  | nil => simp at hc
  | cons a t ih =>
    rw [KeysNodup, List.map_cons, List.nodup_cons] at ht
    obtain ⟨ha, ht'⟩ := ht
    rw [List.countP_cons]
    rcases List.mem_cons.mp hc with h | h
    · rw [if_pos (by simp [h.symm])]
      have hz : t.countP (fun x => decide (x.key = c)) = 0 :=
        List.countP_eq_zero.mpr (fun x hx => by
          simp only [decide_eq_true_eq]
          intro hxc
          exact ha (by rw [← h, ← hxc]; exact List.mem_map_of_mem Entry.key hx))
      rw [hz]
    · have hak : ¬(a.key = c) := fun hEq => ha (hEq ▸ h)
      rw [if_neg (by simpa using hak), Nat.add_zero]
      exact ih ht' h

/-- Frame helper: upserting a present key keeps the key column — and hence
the row set and row order — unchanged (in-place update, no delete+insert). -/
theorem upsert_map_key (t : Table) (k v : String) (ea la now : Int)
    (hk : k ∈ t.map Entry.key) :
    (upsertCache t k v ea la now).map Entry.key = t.map Entry.key := by
  have hany : (t.any fun x => decide (x.key = k)) = true := by
    obtain ⟨x, hx1, hx2⟩ := List.mem_map.mp hk
    exact List.any_eq_true.mpr ⟨x, hx1, by simp [hx2]⟩
  unfold upsertCache
  rw [if_pos hany, List.map_map]
  apply List.map_congr_left
  intro a _
  by_cases h : a.key = k <;> simp [h]

/-- Field helper: after upserting the key of a stored row e, any row that
carries that key holds the new value, expiry and access time while keeping
the original created_at of e. -/
theorem upsert_mem_key_full (t : Table) (e : Entry) (v : String) (ea la now : Int)
    (ht : KeysNodup t) (he : e ∈ t) :
    ∀ x ∈ upsertCache t e.key v ea la now, x.key = e.key →
      x.value = v ∧ x.expires_at = ea ∧ x.last_accessed_at = la ∧
      x.created_at = e.created_at := by
  intro x hx hk
  have hany : (t.any fun y => decide (y.key = e.key)) = true :=
    List.any_eq_true.mpr ⟨e, he, by simp⟩
  unfold upsertCache at hx
  rw [if_pos hany] at hx
  obtain ⟨y, hy, hyx⟩ := List.mem_map.mp hx
  by_cases hyk : y.key = e.key
  · have hye : y = e := key_unique t ht y hy e he hyk
    subst hye
    rw [if_pos hyk] at hyx
    subst hyx
    exact ⟨rfl, rfl, rfl, rfl⟩
  · rw [if_neg hyk] at hyx
    subst hyx
    exact absurd hk hyk

/-- Read-back helper: a Get right after an upsert, at an instant before the
new expiry, returns the upserted value. -/
theorem getValue_upsert (t : Table) (k v : String) (ea la now now2 : Int)
    (hlt : now2 < ea) :
    getValue (upsertCache t k v ea la now) k now2 = some v := by
  cases hf : (upsertCache t k v ea la now).find?
      (fun x => decide (x.key = k ∧ now2 < x.expires_at)) with
  | none =>
    exfalso
    obtain ⟨x, hx, hxk, hxv, hxe, _⟩ := upsert_exists_key t k v ea la now
    exact List.find?_eq_none.mp hf x hx (by simp [hxk, hxe, hlt])
  | some x =>
    have hmem := List.mem_of_find?_eq_some hf
    have hpred := List.find?_some hf
    simp only [decide_eq_true_eq] at hpred
    obtain ⟨hv, _, _⟩ := upsert_mem_key t k v ea la now x hmem hpred.1
    simp only [getValue]
    rw [hf]
    simp [hv]

/-- Counting helper for the variant Set: after INSERT OR REPLACE exactly
one row carries the written key. -/
theorem setV2_countP (t2 : List EntryV2) (k v : String) (ea now : Int) :
    (setV2 t2 k v ea now).countP (fun x => decide (x.key = k)) = 1 := by
  unfold setV2
  rw [List.countP_append]
  have h1 : (t2.filter fun e => decide (e.key ≠ k)).countP
      (fun x => decide (x.key = k)) = 0 :=
    List.countP_eq_zero.mpr (fun a ha => by
      have h2 := (List.mem_filter.mp ha).2
      simp only [decide_eq_true_eq] at h2 ⊢
      exact h2)
  rw [h1]
  simp

/-- Read-back helper for the variant Set: a Get of the written key before
the expiry instant returns the written value. -/
theorem getV2_setV2 (t2 : List EntryV2) (k v : String) (ea now now2 : Int)
    (h : ¬(ea < now2)) :
    (cacheGetV2 (setV2 t2 k v ea now) k now2).1 = .found v := by
  unfold cacheGetV2 setV2
  rw [List.find?_append]
  have h1 : (t2.filter fun e => decide (e.key ≠ k)).find?
      (fun e => decide (e.key = k)) = none :=
    List.find?_eq_none.mpr (fun a ha => by
      have h2 := (List.mem_filter.mp ha).2
      simp only [decide_eq_true_eq] at h2 ⊢
      exact h2)
  rw [h1]
  simp [h]

/-- C6, counterexample.  The variant Set of unnamed/part_002 is a single
INSERT OR REPLACE, which has delete+insert semantics: overwriting key "a"
moves its row to the end of the table and resets created_at to the write
instant, and the statement carries no last_accessed_at at all — so that Set
does not replace value, expires_at and last_accessed_at in place. -/
theorem setV2_delete_insert :
    setV2 tabC6 "a" "v2" 200 10 = [⟨"b", "w", 100, 0⟩, ⟨"a", "v2", 200, 10⟩] ∧
    (setV2 tabC6 "a" "v2" 200 10).map EntryV2.created_at ≠
      tabC6.map EntryV2.created_at ∧
    (setV2 tabC6 "a" "v2" 200 10).map EntryV2.key ≠ tabC6.map EntryV2.key := by
  decide

/-- C6, amended.  Under the UpsertCache statement, a Set on an existing key
updates value, expires_at and last_accessed_at atomically in one in-place
upsert — the key column (hence row order) and the row's created_at are
preserved — exactly one row for the key remains and Get returns the latest
value.  The part_002 variant instead issues a single INSERT OR REPLACE with
delete+insert semantics updating only value and expires_at; there too
exactly one row for the key remains afterwards and Get returns the latest
value. -/
theorem upsert_overwrite_spec (t : Table) (e : Entry) (v : String)
    (ea la now now2 : Int) (t2 : List EntryV2) (k2 v2 : String) (ea2 now3 now4 : Int)
    (ht : KeysNodup t) (he : e ∈ t) (hread : now2 < ea) (hread2 : ¬(ea2 < now4)) :
    ((upsertCache t e.key v ea la now).map Entry.key = t.map Entry.key ∧
     (upsertCache t e.key v ea la now).countP (fun x => decide (x.key = e.key)) = 1 ∧
     (∀ x ∈ upsertCache t e.key v ea la now, x.key = e.key →
        x.value = v ∧ x.expires_at = ea ∧ x.last_accessed_at = la ∧
        x.created_at = e.created_at) ∧
     getValue (upsertCache t e.key v ea la now) e.key now2 = some v) ∧
    ((setV2 t2 k2 v2 ea2 now3).countP (fun x => decide (x.key = k2)) = 1 ∧
     (cacheGetV2 (setV2 t2 k2 v2 ea2 now3) k2 now4).1 = .found v2) := by
  have hkin : e.key ∈ t.map Entry.key := List.mem_map_of_mem Entry.key he
  refine ⟨⟨upsert_map_key t e.key v ea la now hkin, ?_, ?_, ?_⟩, ?_, ?_⟩
  · have hmap := upsert_map_key t e.key v ea la now hkin
    have hnd : KeysNodup (upsertCache t e.key v ea la now) := by
      rw [KeysNodup, hmap]
      exact ht
    have hkin2 : e.key ∈ (upsertCache t e.key v ea la now).map Entry.key := by
      rw [hmap]
      exact hkin
    exact countP_key_eq_one _ e.key hnd hkin2
  · exact upsert_mem_key_full t e v ea la now ht he
  · exact getValue_upsert t e.key v ea la now now2 hread
  · exact setV2_countP t2 k2 v2 ea2 now3
  · exact getV2_setV2 t2 k2 v2 ea2 now3 now4 hread2

/-- C6, witness for upsert_overwrite_spec at concrete tables: overwriting
key "k2" of the five-row table through the upsert statement, and key "a"
of the variant table through INSERT OR REPLACE. -/
theorem upsert_overwrite_spec_witness :
    ((upsertCache tab5 "k2" "nv" 200 50 50).map Entry.key = tab5.map Entry.key ∧
     (upsertCache tab5 "k2" "nv" 200 50 50).countP
       (fun x => decide (x.key = "k2")) = 1 ∧
     (∀ x ∈ upsertCache tab5 "k2" "nv" 200 50 50, x.key = "k2" →
        x.value = "nv" ∧ x.expires_at = 200 ∧ x.last_accessed_at = 50 ∧
        x.created_at = 0) ∧
     getValue (upsertCache tab5 "k2" "nv" 200 50 50) "k2" 60 = some "nv") ∧
    ((setV2 tabC6 "a" "v2" 200 10).countP (fun x => decide (x.key = "a")) = 1 ∧
     (cacheGetV2 (setV2 tabC6 "a" "v2" 200 10) "a" 50).1 = .found "v2") :=
  upsert_overwrite_spec tab5 ⟨"k2", "v2", 0, 100, 2⟩ "nv" 200 50 50 60 tabC6 "a" "v2" 200 10
    50 (by decide) (by decide) (by decide) (by decide)

/-- Sorting helper: every entry among the first n of the access-time sort
is at most every entry after position n. -/
theorem sorted_take_drop_le (t : Table) (n : Nat) :
    ∀ d ∈ (t.insertionSort laLe).take n, ∀ s ∈ (t.insertionSort laLe).drop n,
      d.last_accessed_at ≤ s.last_accessed_at := by
  have hs : List.Pairwise laLe
      ((t.insertionSort laLe).take n ++ (t.insertionSort laLe).drop n) := by
    rw [List.take_append_drop]
    exact List.sorted_insertionSort laLe t
  exact fun d hd s hsm => (List.pairwise_append.mp hs).2.2 d hd s hsm

/-- Sorting helper: the primary-key invariant survives the access-time
sort. -/
theorem sort_keys_nodup (t : Table) (ht : KeysNodup t) :
    ((t.insertionSort laLe).map Entry.key).Nodup :=
  ((List.perm_insertionSort laLe t).map Entry.key).nodup_iff.mpr ht

/-- Victim-set helper: an entry beyond position n of the access-time sort
is not among the n selected keys. -/
theorem drop_key_not_victim (t : Table) (n : Nat) (ht : KeysNodup t) :
    ∀ e ∈ (t.insertionSort laLe).drop n, e.key ∉ selectKeysToDelete t n := by
  intro e he hin
  have hnd2 : (((t.insertionSort laLe).take n).map Entry.key ++
      ((t.insertionSort laLe).drop n).map Entry.key).Nodup := by
    rw [← List.map_append, List.take_append_drop]
    exact sort_keys_nodup t ht
  rw [List.nodup_append] at hnd2
  exact hnd2.2.2 (by simpa [selectKeysToDelete] using hin)
    (List.mem_map_of_mem Entry.key he)

/-- The delete-oldest-n statement leaves exactly the entries beyond
position n of the access-time sort. -/
theorem deleteKeysByLimit_perm (t : Table) (n : Nat) (ht : KeysNodup t) :
    List.Perm (deleteKeysByLimit t n) ((t.insertionSort laLe).drop n) := by
  have htake : ((t.insertionSort laLe).take n).filter
      (fun e => decide (e.key ∉ selectKeysToDelete t n)) = [] :=
    List.filter_eq_nil_iff.mpr (fun a ha => by
      simp only [decide_eq_true_eq, not_not]
      simpa [selectKeysToDelete] using List.mem_map_of_mem Entry.key ha)
  have hdrop : ((t.insertionSort laLe).drop n).filter
      (fun e => decide (e.key ∉ selectKeysToDelete t n)) =
      (t.insertionSort laLe).drop n :=
    List.filter_eq_self.mpr (fun a ha => by
      simp only [decide_eq_true_eq]
      exact drop_key_not_victim t n ht a ha)
  have heq : (t.insertionSort laLe).filter
      (fun e => decide (e.key ∉ selectKeysToDelete t n)) =
      (t.insertionSort laLe).drop n := by
    conv_lhs => rw [← List.take_append_drop n (t.insertionSort laLe)]
    rw [List.filter_append, htake, hdrop, List.nil_append]
  unfold deleteKeysByLimit
  have hperm := (List.perm_insertionSort laLe t).symm.filter
    (fun e => decide (e.key ∉ selectKeysToDelete t n))
  rw [heq] at hperm
  exact hperm

/-- Counting helper: deleting the n oldest of at least n distinct-key
entries removes exactly n rows. -/
theorem deleteKeysByLimit_length (t : Table) (n : Nat) (ht : KeysNodup t)
    (hn : n ≤ t.length) :
    (deleteKeysByLimit t n).length + n = t.length := by
  rw [(deleteKeysByLimit_perm t n ht).length_eq, List.length_drop,
    List.length_insertionSort]
  omega

/-- LRU helper: every deleted entry was accessed no later than every
surviving entry. -/
theorem deleteKeysByLimit_lru (t : Table) (n : Nat) (ht : KeysNodup t) :
    ∀ d ∈ t, d ∉ deleteKeysByLimit t n → ∀ s ∈ deleteKeysByLimit t n,
      d.last_accessed_at ≤ s.last_accessed_at := by
  intro d hd hdn s hs
  have hs' : s ∈ (t.insertionSort laLe).drop n :=
    (deleteKeysByLimit_perm t n ht).mem_iff.mp hs
  have hdk : d.key ∈ selectKeysToDelete t n := by
    by_contra hno
    apply hdn
    unfold deleteKeysByLimit
    rw [List.mem_filter]
    exact ⟨hd, by simpa using hno⟩
  have hds : d ∈ (t.insertionSort laLe).take n ++ (t.insertionSort laLe).drop n := by
    rw [List.take_append_drop]
    exact (List.perm_insertionSort laLe t).mem_iff.mpr hd
  rcases List.mem_append.mp hds with h | h
  · exact sorted_take_drop_le t n d h s hs'
  · exact absurd hdk (drop_key_not_victim t n ht d h)

/-- Arithmetic helper: for a fraction at most 1 the computed delete count
never exceeds the entry count. -/
theorem entriesToDelete_le (n : Nat) (percent : ℚ) (h1 : percent ≤ 1) :
    entriesToDelete n percent ≤ n := by
  unfold entriesToDelete
  have hfl : ⌊(n : ℚ) * percent⌋ ≤ (n : Int) := by
    have h2 : (n : ℚ) * percent ≤ (n : ℚ) :=
      mul_le_of_le_one_right (by positivity) h1
    calc ⌊(n : ℚ) * percent⌋ ≤ ⌊(n : ℚ)⌋ := Int.floor_le_floor h2
      _ = (n : Int) := Int.floor_natCast n
  exact Int.toNat_le.mpr hfl

/-- Normal-form helper: on a valid fraction the purge returns the table
untouched for a zero delete count and the delete-oldest-K result
otherwise. -/
theorem purgeEntries_valid (t : Table) (percent : ℚ)
    (hval : ¬(percent < 0 ∨ 1 < percent)) :
    purgeEntries t percent =
      .ok (if entriesToDelete t.length percent = 0 then t
           else deleteKeysByLimit t (entriesToDelete t.length percent)) := by
  simp only [purgeEntries, countEntries]
  rw [if_neg hval]
  by_cases hk : entriesToDelete t.length percent = 0
  · rw [if_pos hk, if_pos hk]
  · rw [if_neg hk, if_neg hk]

/-- C3.  A fraction outside [0, 1] makes Purge return the validation error
before any storage access, deleting nothing; a fraction in [0, 1] makes it
succeed deleting exactly floor(N * fraction) entries — those with the
smallest last_accessed_at, every deleted entry accessed no later than every
survivor — and a zero count is a no-op success returning the table
unchanged. -/
theorem purge_fraction_spec (t : Table) (percent : ℚ) (ht : KeysNodup t) :
    (percent < 0 ∨ 1 < percent →
      purgeEntries t percent = .error "invalid percentage") ∧
    (0 ≤ percent → percent ≤ 1 →
      ∃ t', purgeEntries t percent = .ok t' ∧
        t'.length + entriesToDelete t.length percent = t.length ∧
        (∀ d ∈ t, d ∉ t' → ∀ s ∈ t', d.last_accessed_at ≤ s.last_accessed_at) ∧
        (entriesToDelete t.length percent = 0 → t' = t)) := by
  constructor
  · intro h
    unfold purgeEntries
    rw [if_pos h]
  · intro h0 h1
    have hval : ¬(percent < 0 ∨ 1 < percent) := by
      push_neg
      exact ⟨h0, h1⟩
    rw [purgeEntries_valid t percent hval]
    by_cases hk : entriesToDelete t.length percent = 0
    · refine ⟨t, by rw [if_pos hk], by simp [hk], ?_, fun _ => rfl⟩
      intro d hd hdn
      exact absurd hd hdn
    · refine ⟨deleteKeysByLimit t (entriesToDelete t.length percent),
        by rw [if_neg hk], ?_, ?_, fun h => absurd h hk⟩
      · exact deleteKeysByLimit_length t _ ht (entriesToDelete_le t.length percent h1)
      · exact deleteKeysByLimit_lru t _ ht

/-- C3, witness for purge_fraction_spec: fraction 1/5 on the five-row
table, all hypotheses discharged, so exactly one entry — the least
recently accessed — is deleted. -/
theorem purge_fraction_spec_witness :
    ∃ t', purgeEntries tab5 (1/5 : ℚ) = .ok t' ∧
      t'.length + entriesToDelete tab5.length (1/5 : ℚ) = tab5.length ∧
      (∀ d ∈ tab5, d ∉ t' → ∀ s ∈ t', d.last_accessed_at ≤ s.last_accessed_at) ∧
      (entriesToDelete tab5.length (1/5 : ℚ) = 0 → t' = tab5) :=
  (purge_fraction_spec tab5 (1/5 : ℚ) (by decide)).2 (by norm_num) (by norm_num)

end Litepack
